import Mathlib

/-!
# credit.c: Luhn validation and card-type classification

A shallow embedding of `src/credit.c` and the properties its specification
states about it.

Conventions of the embedding.

* A C string (`char *s`, NUL-terminated) is the `List Char` of the characters
  that precede its terminator, so `strlen(s)` is `s.length`.  A possibly-null
  pointer is an `Option (List Char)`.
* `int` values are mathematical integers (`Int`); `/` and `%` on `int` are the
  truncating `Int.tdiv` and `Int.tmod`.  Every `int` the program computes from
  a string of fewer than `2^31` characters stays far inside the 32-bit range,
  so no wrap-around is modelled; `int length = strlen(s)` is taken to be exact.
* A read `s[i]` is `charAt s i`, which is `none` when `i` is not the index of a
  character of the string.  Functions that read by index therefore return an
  `Option`, and `none` marks a read outside the string.
* `printf` appends a chunk of text to the output; a function that prints
  returns the text it printed.
* Standard input is the finite list of characters still to be read; `fgetc`
  at the end of that list yields `EOF`, again and again.
* `malloc` and `realloc` succeed.  A store outside the bounds of the buffer,
  and a use of a pointer to a block that `realloc` has since deallocated, are
  undefined behaviour in C; a run of `main` that reaches either one ends in
  `Outcome.undefined`.
* `isdigit` is the test for `'0'..'9'` on every character.
-/

namespace Credit

/-! ## Constants -/

/-- The constant `MIN_LENGTH` (credit.c:23). -/
def MIN_LENGTH : Nat := 13

/-- The constant `MAX_LENGTH` (credit.c:24). -/
def MAX_LENGTH : Nat := 16

/-! ## Library functions used by the program -/

/-- The `isdigit` of `<ctype.h>`: the character code lies between the codes of
`'0'` (48) and `'9'` (57). -/
def isdigit (c : Char) : Bool :=
  decide (48 ≤ c.toNat ∧ c.toNat ≤ 57)

/-- A read `s[i]` of a character of the string; `none` when `i` is at or past
the terminator. -/
def charAt (s : List Char) (i : Nat) : Option Char :=
  s[i]?

/-- The short-circuit `a && b` of C over operands that may read the string:
`b` is consulted only when `a` is true. -/
def cAnd (a b : Option Bool) : Option Bool :=
  match a with
  | none => none
  | some false => some false
  | some true => b

/-- The short-circuit `a || b` of C: `b` is consulted only when `a` is false. -/
def cOr (a b : Option Bool) : Option Bool :=
  match a with
  | none => none
  | some true => some true
  | some false => b

/-- The comparison `s[i] == c`. -/
def charEq (s : List Char) (i : Nat) (c : Char) : Option Bool :=
  (charAt s i).map (fun x => x == c)

/-! ## isNumeric (credit.c:61-72) -/

/-- The `while (*s != '\0')` loop of `isNumeric`: the empty list is the
terminator being reached. -/
def isNumericLoop : List Char → Bool
  | [] => true
  | c :: rest => if !isdigit c then false else isNumericLoop rest

/-- The function `isNumeric`: `false` on the null pointer, otherwise the scan. -/
def isNumeric : Option (List Char) → Bool
  | none => false
  | some s => isNumericLoop s

/-! ## addDigits (credit.c:118-121) -/

/-- The function `addDigits`: `(n / 10) + (n % 10)` in C's truncating
arithmetic. -/
def addDigits (n : Int) : Int :=
  Int.tdiv n 10 + Int.tmod n 10

/-! ## luhn (credit.c:80-112) -/

/-- What one iteration of a loop of `luhn` computes: the index read, the value
of `digit`, the argument handed to `addDigits` (when it is called) and the
value of `sum` after the iteration. -/
structure Iteration where
  index : Nat
  digit : Int
  doubled : Option Int
  sum : Int
deriving DecidableEq

/-- The expression `s[i] - '0'`. -/
def digitOf (c : Char) : Int :=
  (c.toNat : Int) - ('0'.toNat : Int)

/-- The body of the even-length loop (credit.c:92-96). -/
def evenBody (s : List Char) (i : Nat) (sum : Int) : Option Iteration :=
  match charAt s i with
  | none => none
  | some c =>
    let digit := digitOf c
    if i % 2 = 0 then
      some ⟨i, digit, some (2 * digit), sum + addDigits (2 * digit)⟩
    else
      some ⟨i, digit, none, sum + digit⟩

/-- The body of the odd-length loop (credit.c:102-106). -/
def oddBody (s : List Char) (i : Nat) (sum : Int) : Option Iteration :=
  match charAt s i with
  | none => none
  | some c =>
    let digit := digitOf c
    if i % 2 = 0 then
      some ⟨i, digit, none, sum + digit⟩
    else
      some ⟨i, digit, some (2 * digit), sum + addDigits (2 * digit)⟩

/-- The loop `for (i = ..; i < length; i++)` around a body: `n` is the number
of iterations left, `length - i`.  The result is the final `sum`. -/
def runLoop (body : Nat → Int → Option Iteration) : Nat → Nat → Int → Option Int
  | 0, _, sum => some sum
  | n + 1, i, sum =>
    match body i sum with
    | none => none
    | some it => runLoop body n (i + 1) it.sum

/-- The iterations a loop performs, in order, up to the first read outside the
string (if any). -/
def traceLoop (body : Nat → Int → Option Iteration) : Nat → Nat → Int → List Iteration
  | 0, _, _ => []
  | n + 1, i, sum =>
    match body i sum with
    | none => []
    | some it => it :: traceLoop body n (i + 1) it.sum

/-- The function `luhn`. -/
def luhn (s : List Char) : Option Bool :=
  let length := s.length
  if ¬ (length ≥ MIN_LENGTH ∧ length ≤ MAX_LENGTH) then
    some false
  else
    let sum :=
      if length % 2 = 0 then runLoop (evenBody s) length 0 0
      else runLoop (oddBody s) length 0 0
    sum.map (fun sum => decide (Int.tmod sum 10 = 0))

/-- The iterations performed by a call of `luhn` (none when the length gate
returns early). -/
def luhnTrace (s : List Char) : List Iteration :=
  let length := s.length
  if ¬ (length ≥ MIN_LENGTH ∧ length ≤ MAX_LENGTH) then
    []
  else if length % 2 = 0 then traceLoop (evenBody s) length 0 0
  else traceLoop (oddBody s) length 0 0

/-! ## checkPrefix (credit.c:157-179) -/

/-- The sentence printed when no card type matches (credit.c:178). -/
def UNRECOGNIZED : String :=
  "\nThis number is syntactically valid, but it is not a Visa, Mastercard, Discover, or American Express.\n"

/-- The function `checkPrefix`; the result is the text it prints. -/
def checkPrefix (s : List Char) : Option String :=
  let length := s.length
  match cAnd (some (length == 13 || length == 16)) (charEq s 0 '4') with
  | none => none
  | some true => some "Visa\n"
  | some false =>
  match cAnd (some (length == 16)) (charEq s 0 '5') with
  | none => none
  | some true => some "Mastercard\n"
  | some false =>
  match cAnd (cAnd (cAnd (cAnd (some (length == 16)) (charEq s 0 '6')) (charEq s 1 '0'))
      (charEq s 2 '1')) (charEq s 3 '1') with
  | none => none
  | some true => some "Discover\n"
  | some false =>
  match cAnd (cAnd (some (length == 15)) (charEq s 0 '3'))
      (cOr (charEq s 1 '4') (charEq s 1 '7')) with
  | none => none
  | some true => some "American Express\n"
  | some false => some UNRECOGNIZED

/-! ## The conditions of checkPrefix, with the indices they read -/

/-- A condition of `checkPrefix` evaluated over a string: its value (`none`
when it read outside the string) and the indices it read, in order. -/
structure Traced where
  value : Option Bool
  reads : List Nat
deriving DecidableEq

/-- A test on `length`: it reads no character. -/
def tTest (b : Bool) : Traced :=
  ⟨some b, []⟩

/-- The comparison `s[i] == c`: it reads index `i`. -/
def tCharEq (s : List Char) (i : Nat) (c : Char) : Traced :=
  ⟨charEq s i c, [i]⟩

/-- The short-circuit `a && b`: the reads of `b` happen only when `a` is true. -/
def tAnd (a b : Traced) : Traced :=
  match a.value with
  | some true => ⟨b.value, a.reads ++ b.reads⟩
  | v => ⟨v, a.reads⟩

/-- The short-circuit `a || b`: the reads of `b` happen only when `a` is false. -/
def tOr (a b : Traced) : Traced :=
  match a.value with
  | some false => ⟨b.value, a.reads ++ b.reads⟩
  | v => ⟨v, a.reads⟩

/-- The Visa condition (credit.c:163). -/
def visaCondition (s : List Char) : Traced :=
  tAnd (tTest (s.length == 13 || s.length == 16)) (tCharEq s 0 '4')

/-- The Mastercard condition (credit.c:167). -/
def mastercardCondition (s : List Char) : Traced :=
  tAnd (tTest (s.length == 16)) (tCharEq s 0 '5')

/-- The Discover condition (credit.c:171). -/
def discoverCondition (s : List Char) : Traced :=
  tAnd (tAnd (tAnd (tAnd (tTest (s.length == 16)) (tCharEq s 0 '6')) (tCharEq s 1 '0'))
    (tCharEq s 2 '1')) (tCharEq s 3 '1')

/-- The American Express condition (credit.c:175). -/
def amexCondition (s : List Char) : Traced :=
  tAnd (tAnd (tTest (s.length == 15)) (tCharEq s 0 '3'))
    (tOr (tCharEq s 1 '4') (tCharEq s 1 '7'))

/-- The four conditions of `checkPrefix` with the text each one prints, in the
order of the code. -/
def codeRules (s : List Char) : List (Traced × String) :=
  [ (visaCondition s, "Visa\n"),
    (mastercardCondition s, "Mastercard\n"),
    (discoverCondition s, "Discover\n"),
    (amexCondition s, "American Express\n") ]

/-- An `if / else if / ... / else` cascade over a list of rules: the text of
the first rule whose condition is true, the fixed sentence when none is. -/
def evalRules : List (Traced × String) → Option String
  | [] => some UNRECOGNIZED
  | r :: rest =>
    match r.1.value with
    | none => none
    | some true => some r.2
    | some false => evalRules rest

/-- The indices read by a cascade: those of each condition evaluated, which are
the conditions up to the first one that is not false. -/
def cascadeReads : List (Traced × String) → List Nat
  | [] => []
  | r :: rest =>
    match r.1.value with
    | some false => r.1.reads ++ cascadeReads rest
    | _ => r.1.reads

/-- The indices of the string that a call of `checkPrefix` reads, in order. -/
def checkPrefixReads (s : List Char) : List Nat :=
  cascadeReads (codeRules s)

/-! ## getInput (credit.c:128-150) -/

/-- The local state of `getInput`: `length`, `capacity`, the characters stored
at indices `0 .. length-1` of the buffer, the stores performed so far (each as
the index written and the capacity of the buffer at that moment), and whether
`realloc` has been called. -/
structure InputState where
  length : Nat
  capacity : Nat
  buffer : List Char
  writes : List (Nat × Nat)
  reallocated : Bool
deriving DecidableEq

/-- The `while ((c = fgetc(stdin)) != '\n' && c != EOF)` loop of `getInput`.
The empty input is `EOF`; a newline is consumed and ends the loop; any other
character doubles `capacity` (and reallocates) when `length + 1 > capacity` and
is then stored at index `length`.  The result is the final state and the input
still unread. -/
def getInputLoop : List Char → InputState → InputState × List Char
  | [], st => (st, [])
  | c :: rest, st =>
    if c = '\n' then
      (st, rest)
    else
      let grow := decide (st.length + 1 > st.capacity)
      let capacity := if grow then st.capacity * 2 else st.capacity
      getInputLoop rest
        ⟨st.length + 1, capacity, st.buffer ++ [c], st.writes ++ [(st.length, capacity)],
          st.reallocated || grow⟩

/-- What a call of `getInput` leaves behind: the C string in its buffer, every
store it performed (index, capacity at that moment), whether it reallocated the
buffer, and the unread input. -/
structure Line where
  text : List Char
  writes : List (Nat × Nat)
  reallocated : Bool
  rest : List Char
deriving DecidableEq

/-- The function `getInput`.  After the loop the terminator is stored at index
`length`; the C string in the buffer ends at the first NUL, which is that
terminator unless the line itself held a NUL character. -/
def getInput (stdin : List Char) : Line :=
  let r := getInputLoop stdin ⟨0, MAX_LENGTH + 1, [], [], false⟩
  let st := r.1
  ⟨st.buffer.takeWhile (fun c => c != '\x00'),
   st.writes ++ [(st.length, st.capacity)],
   st.reallocated,
   r.2⟩

/-- Whether the caller of `getInput` may go on using its own pointer: every
store stayed inside the buffer, and the buffer was not reallocated.  `getInput`
receives the pointer by value and assigns the result of `realloc` to its local
copy only (credit.c:140), so after a reallocation the caller's pointer refers to
a deallocated block. -/
def Line.defined (line : Line) : Bool :=
  line.writes.all (fun w => decide (w.1 < w.2)) && !line.reallocated

/-! ## main (credit.c:34-54) -/

/-- The prompt printed before each read (credit.c:41). -/
def PROMPT : String := "Enter credit card number: "

/-- How a run of `main` ends: it returns `status` having printed `out`, or it
reaches undefined behaviour having printed `out`. -/
inductive Outcome where
  | exit (out : List String) (status : Int)
  | undefined (out : List String)
deriving DecidableEq

/-- How the read loop of `main` ends: with an accepted string in `input`, or in
undefined behaviour. -/
inductive LoopResult where
  | accepted (input : List Char) (out : List String)
  | undefined (out : List String)
deriving DecidableEq

/-- The `do { ... } while (isNumeric(input) == false)` loop of `main`: print the
prompt, read a line, repeat while the line is rejected.  `fuel` bounds the
number of rounds; `none` means the bound was reached. -/
def mainLoop : Nat → List Char → List String → Option LoopResult
  | 0, _, _ => none
  | fuel + 1, stdin, out =>
    let out := out ++ [PROMPT]
    let line := getInput stdin
    if !line.defined then
      some (LoopResult.undefined out)
    else if isNumeric (some line.text) == false then
      mainLoop fuel line.rest out
    else
      some (LoopResult.accepted line.text out)

/-- The function `main` on a given standard input: the chunks of text printed,
in order, and the exit status.  Each round of the read loop consumes at least
one character unless the input is exhausted, so `stdin.length + 1` rounds are
allowed. -/
def main (stdin : List Char) : Option Outcome :=
  match mainLoop (stdin.length + 1) stdin [] with
  | none => none
  | some (LoopResult.undefined out) => some (Outcome.undefined out)
  | some (LoopResult.accepted input out) =>
    match luhn input with
    | none => some (Outcome.undefined out)
    | some false => some (Outcome.exit (out ++ ["invalid\n"]) 0)
    | some true =>
      match checkPrefix input with
      | none => some (Outcome.undefined (out ++ ["valid "]))
      | some name => some (Outcome.exit (out ++ ["valid "] ++ [name]) 0)

/-- The text on standard output: the printed chunks, concatenated. -/
def stdoutText (chunks : List String) : String :=
  String.join chunks

/-! ## Vocabulary of the specification -/

/-- The ten decimal digit characters. -/
def decimalDigits : List Char := ['0', '1', '2', '3', '4', '5', '6', '7', '8', '9']

/-- A string of decimal digits: every character is one of `'0'..'9'`. -/
abbrev IsDigitString (s : List Char) : Prop := ∀ c ∈ s, c ∈ decimalDigits

/-- The sum of the decimal digits of a natural number. -/
def decimalDigitSum (n : Nat) : Nat := (Nat.digits 10 n).sum

/-- The weighting rule of the specification: in a string of length `L`, the
doubled positions are the even indices when `L` is even and the odd indices when
`L` is odd. -/
def isDoubledPosition (L i : Nat) : Bool :=
  if L % 2 = 0 then i % 2 == 0 else i % 2 == 1

/-- The running sum of the specification over all zero-based positions: a
doubled position contributes `addDigits (2 * d)`, a plain position `d`. -/
def positionalSum (s : List Char) : Int :=
  (s.enum.map (fun p =>
    if isDoubledPosition s.length p.1 then addDigits (2 * digitOf p.2) else digitOf p.2)).sum

/-- The total of the standard right-to-left check: reverse the digits, double
every second digit counting from the rightmost (which is itself not doubled),
replace each doubled value by the sum of its decimal digits, and add up. -/
def standardLuhnTotal (s : List Char) : Nat :=
  (s.reverse.enum.map (fun p =>
    let d := p.2.toNat - '0'.toNat
    if p.1 % 2 = 1 then decimalDigitSum (2 * d) else d)).sum

/-- The verdict of the standard check: the total is divisible by 10. -/
def standardLuhn (s : List Char) : Bool :=
  decide (standardLuhnTotal s % 10 = 0)

/-- A row of the classification table of the specification: the admissible
lengths, the admissible leading digits and the network. -/
structure Rule where
  lengths : List Nat
  leadingDigits : List (List Char)
  network : String

/-- Whether a row applies to a string: its length is one of the row's lengths
and it starts with one of the row's leading digit sequences. -/
def Rule.applies (r : Rule) (s : List Char) : Bool :=
  r.lengths.contains s.length && r.leadingDigits.any (fun p => p.isPrefixOf s)

/-- The ordered rule table of the specification. -/
def ruleTable : List Rule :=
  [ ⟨[13, 16], [['4']], "Visa"⟩,
    ⟨[16], [['5']], "Mastercard"⟩,
    ⟨[16], [['6', '0', '1', '1']], "Discover"⟩,
    ⟨[15], [['3', '4'], ['3', '7']], "American Express"⟩ ]

/-- The network of the first row of the table that applies, if any. -/
def firstMatch (s : List Char) : Option String :=
  (ruleTable.find? (fun r => r.applies s)).map (fun r => r.network)

/-- What a safe call says of one iteration over the string `s`: the index read
is inside the string, `digit` is the value of the character there and lies in
`0..9`, and an argument handed to `addDigits` lies in `0..18`. -/
def SafeIteration (s : List Char) (it : Iteration) : Prop :=
  it.index < s.length ∧ (∃ c, charAt s it.index = some c ∧ it.digit = digitOf c) ∧
    0 ≤ it.digit ∧ it.digit ≤ 9 ∧ ∀ a, it.doubled = some a → 0 ≤ a ∧ a ≤ 18

/-- The verdict text of a run: what is printed after the prompts. -/
def verdictText (out : List String) : String :=
  stdoutText (out.dropWhile (fun chunk => chunk == PROMPT))

/-! ## Auxiliary definitions for the proofs -/

/-- The input left unread after `k` calls of `getInput`. -/
def afterLines : Nat → List Char → List Char
  | 0, stdin => stdin
  | k + 1, stdin => afterLines k (getInput stdin).rest

/-- What one character adds to `sum`: `addDigits (2 * digit)` when doubled,
`digit` otherwise. -/
def contribution (dbl : Bool) (c : Char) : Int :=
  if dbl then addDigits (2 * digitOf c) else digitOf c

/-- The sum of the contributions of a list of characters whose first character
is doubled or not according to the flag, alternating from there on. -/
def alternating : Bool → List Char → Int
  | _, [] => 0
  | b, c :: cs => contribution b c + alternating (!b) cs

/-! ## Lemmas -/

/-- The range test of `isdigit` picks out exactly the ten digit characters. -/
theorem isdigit_iff (c : Char) : isdigit c = true ↔ c ∈ decimalDigits := by
  constructor
  · intro h
    simp only [isdigit, decide_eq_true_eq] at h
    obtain ⟨h1, h2⟩ := h
    rw [← Char.ofNat_toNat c]
    generalize c.toNat = n at h1 h2
    interval_cases n <;> decide
  · intro h
    simp only [decimalDigits, List.mem_cons, List.mem_singleton] at h
    simp at h
    rcases h with h | h | h | h | h | h | h | h | h | h <;> subst h <;> decide

/-- The scan of `isNumeric` succeeds exactly on strings of digits. -/
theorem isNumericLoop_iff (s : List Char) : isNumericLoop s = true ↔ IsDigitString s := by
  induction s with
  | nil => simp [isNumericLoop, IsDigitString]
  | cons c rest ih =>
    simp only [isNumericLoop, IsDigitString, List.mem_cons, forall_eq_or_imp]
    cases hc : isdigit c
    · have : ¬ c ∈ decimalDigits := by rw [← isdigit_iff, hc]; simp
      simp [this]
    · have : c ∈ decimalDigits := by rw [← isdigit_iff, hc]
      simpa [this] using ih

/-- On `0..18`, `addDigits` is the sum of the decimal digits. -/
theorem addDigits_small (n : Int) (h0 : 0 ≤ n) (h18 : n ≤ 18) :
    addDigits n = (decimalDigitSum n.toNat : Int) := by
  interval_cases n <;> simp [addDigits, decimalDigitSum] <;> rfl

/-- On operands that are both defined, `cAnd` is the boolean conjunction. -/
theorem cAnd_some (a b : Bool) : cAnd (some a) (some b) = some (a && b) := by
  cases a <;> rfl

/-- On operands that are both defined, `cOr` is the boolean disjunction. -/
theorem cOr_some (a b : Bool) : cOr (some a) (some b) = some (a || b) := by
  cases a <;> rfl

/-- The comparison at index 0 of a string with at least one character. -/
theorem charEq_zero (c0 : Char) (t : List Char) (x : Char) :
    charEq (c0 :: t) 0 x = some (c0 == x) := by simp [charEq, charAt]

/-- The comparison at index 1 of a string with at least two characters. -/
theorem charEq_one (c0 c1 : Char) (t : List Char) (x : Char) :
    charEq (c0 :: c1 :: t) 1 x = some (c1 == x) := by simp [charEq, charAt]

/-- The comparison at index 2 of a string with at least three characters. -/
theorem charEq_two (c0 c1 c2 : Char) (t : List Char) (x : Char) :
    charEq (c0 :: c1 :: c2 :: t) 2 x = some (c2 == x) := by simp [charEq, charAt]

/-- The comparison at index 3 of a string with at least four characters. -/
theorem charEq_three (c0 c1 c2 c3 : Char) (t : List Char) (x : Char) :
    charEq (c0 :: c1 :: c2 :: c3 :: t) 3 x = some (c3 == x) := by simp [charEq, charAt]

/-- The cascade of `checkPrefix` is the first-match lookup in the rule table. -/
theorem checkPrefix_eq_firstMatch (s : List Char) :
    checkPrefix s = some (match firstMatch s with
      | some name => name ++ "\n"
      | none => UNRECOGNIZED) := by
  rcases s with _ | ⟨c0, _ | ⟨c1, _ | ⟨c2, _ | ⟨c3, t⟩⟩⟩⟩
  · decide
  · simp [checkPrefix, firstMatch, ruleTable, Rule.applies, cAnd, cOr, charEq, charAt]
  · simp [checkPrefix, firstMatch, ruleTable, Rule.applies, cAnd, cOr, charEq, charAt]
  · simp [checkPrefix, firstMatch, ruleTable, Rule.applies, cAnd, cOr, charEq, charAt]
  · have comm : ∀ x y : Char, (x == y) = (y == x) := fun x y => BEq.comm
    simp only [checkPrefix, firstMatch, ruleTable, Rule.applies, charEq_zero, charEq_one,
      charEq_two, charEq_three, cAnd_some, cOr_some, List.find?, List.isPrefixOf, List.any,
      List.contains, List.elem, Bool.and_true, Bool.or_false, comm '4', comm '5', comm '6',
      comm '0', comm '1', comm '3', comm '7']
    generalize (c0 :: c1 :: c2 :: c3 :: t).length = n
    generalize (n == 13) = e13
    generalize (n == 16) = e16
    generalize (n == 15) = e15
    generalize (c0 == '4') = a4
    generalize (c0 == '5') = a5
    generalize (c0 == '6') = a6
    generalize (c0 == '3') = a3
    generalize (c1 == '0') = b0
    generalize (c1 == '4') = b4
    generalize (c1 == '7') = b7
    generalize (c2 == '1') = d1
    generalize (c3 == '1') = f1
    cases e13 <;> cases e16 <;> cases e15 <;> cases a4 <;> cases a5 <;> cases a6 <;>
      cases a3 <;> cases b0 <;> cases b4 <;> cases b7 <;> cases d1 <;> cases f1 <;> rfl

/-- Reading at the index where a suffix starts yields its first character. -/
theorem charAt_append (pre : List Char) (c : Char) (cs : List Char) :
    charAt (pre ++ c :: cs) pre.length = some c := by
  induction pre with
  | nil => simp [charAt]
  | cons p ps ih => simpa [charAt] using ih

/-- The even-length loop, started at the index where the suffix `l` begins, adds the
alternating sum of `l` and reads nothing outside the string. -/
theorem runLoop_even (l pre : List Char) (sum : Int) :
    runLoop (evenBody (pre ++ l)) l.length pre.length sum
      = some (sum + alternating (decide (pre.length % 2 = 0)) l) := by
  induction l generalizing pre sum with
  | nil => simp [runLoop, alternating]
  | cons c cs ih =>
    have hs : pre ++ c :: cs = (pre ++ [c]) ++ cs := by simp
    have ih2 := ih (pre ++ [c])
    rw [← hs] at ih2
    simp only [List.length_cons, runLoop, evenBody, charAt_append]
    by_cases hp : pre.length % 2 = 0
    · have hq : ¬ (pre.length + 1) % 2 = 0 := by omega
      simp only [List.length_append, List.length_singleton] at ih2
      simp only [hp, if_true, ih2, hq, alternating, contribution, decide_True, decide_False,
        Bool.not_true, Option.some.injEq]
      try simp only [Bool.false_eq_true, if_false, if_true, Bool.not_true, Bool.not_false]
      ring
    · have hq : (pre.length + 1) % 2 = 0 := by omega
      simp only [List.length_append, List.length_singleton] at ih2
      simp only [hp, if_false, ih2, hq, alternating, contribution, decide_True, decide_False,
        Bool.not_false, Option.some.injEq]
      try simp only [Bool.false_eq_true, if_false, if_true, Bool.not_true, Bool.not_false]
      ring

/-- The odd-length loop, started at the index where the suffix `l` begins, adds the
alternating sum of `l` and reads nothing outside the string. -/
theorem runLoop_odd (l pre : List Char) (sum : Int) :
    runLoop (oddBody (pre ++ l)) l.length pre.length sum
      = some (sum + alternating (!decide (pre.length % 2 = 0)) l) := by
  induction l generalizing pre sum with
  | nil => simp [runLoop, alternating]
  | cons c cs ih =>
    have hs : pre ++ c :: cs = (pre ++ [c]) ++ cs := by simp
    have ih2 := ih (pre ++ [c])
    rw [← hs] at ih2
    simp only [List.length_cons, runLoop, oddBody, charAt_append]
    by_cases hp : pre.length % 2 = 0
    · have hq : ¬ (pre.length + 1) % 2 = 0 := by omega
      simp only [List.length_append, List.length_singleton] at ih2
      simp only [hp, if_true, ih2, hq, alternating, contribution, decide_True, decide_False,
        Bool.not_true, Option.some.injEq]
      try simp only [Bool.false_eq_true, if_false, if_true, Bool.not_true, Bool.not_false]
      ring
    · have hq : (pre.length + 1) % 2 = 0 := by omega
      simp only [List.length_append, List.length_singleton] at ih2
      simp only [hp, if_false, ih2, hq, alternating, contribution, decide_True, decide_False,
        Bool.not_false, Option.some.injEq]
      try simp only [Bool.false_eq_true, if_false, if_true, Bool.not_true, Bool.not_false]
      ring

/-- Past the length gate, `luhn` tests the alternating sum whose first character is
doubled exactly when the length is even. -/
theorem luhn_eq_alternating (s : List Char) (hL : 13 ≤ s.length) (hU : s.length ≤ 16) :
    luhn s = some (decide (Int.tmod (alternating (decide (s.length % 2 = 0)) s) 10 = 0)) := by
  have he := runLoop_even s [] 0
  have ho := runLoop_odd s [] 0
  simp only [List.nil_append, List.length_nil, Nat.zero_mod, decide_True, Bool.not_true,
    zero_add] at he ho
  unfold luhn
  simp only [MIN_LENGTH, MAX_LENGTH, ge_iff_le, hL, hU, and_self, not_true_eq_false, if_false]
  by_cases hp : s.length % 2 = 0
  · simp [hp, he]
  · simp [hp, ho]

/-- The values the program computes from a digit character. -/
theorem digit_facts (c : Char) (hc : c ∈ decimalDigits) :
    0 ≤ digitOf c ∧ digitOf c ≤ 9 ∧ ((c.toNat - '0'.toNat : Nat) : Int) = digitOf c ∧
      ((decimalDigitSum (2 * (c.toNat - '0'.toNat)) : Nat) : Int) = addDigits (2 * digitOf c) ∧
      0 ≤ addDigits (2 * digitOf c) ∧ addDigits (2 * digitOf c) ≤ 9 := by
  simp only [decimalDigits, List.mem_cons, List.mem_singleton, List.not_mem_nil, or_false] at hc
  rcases hc with h | h | h | h | h | h | h | h | h | h <;> subst h <;>
    refine ⟨by decide, by decide, by decide, ?_, by decide, by decide⟩ <;>
    simp [decimalDigitSum] <;> rfl

/-- A digit contributes between 0 and 9 to the sum. -/
theorem contribution_range (b : Bool) (c : Char) (hc : c ∈ decimalDigits) :
    0 ≤ contribution b c ∧ contribution b c ≤ 9 := by
  obtain ⟨h0, h9, _, _, h0a, h9a⟩ := digit_facts c hc
  cases b <;> simp [contribution, *]

/-- Distinct digits contribute distinct amounts, doubled or not. -/
theorem contribution_injective (b : Bool) (c d : Char) (hc : c ∈ decimalDigits)
    (hd : d ∈ decimalDigits) (h : contribution b c = contribution b d) : c = d := by
  simp only [decimalDigits, List.mem_cons, List.mem_singleton, List.not_mem_nil, or_false] at hc hd
  rcases hc with h1 | h1 | h1 | h1 | h1 | h1 | h1 | h1 | h1 | h1 <;>
  rcases hd with h2 | h2 | h2 | h2 | h2 | h2 | h2 | h2 | h2 | h2 <;>
  subst h1 <;> subst h2 <;> first | rfl | (exfalso; revert h; cases b <;> decide)

/-- Doubled and plain positions alternate. -/
theorem isDoubledPosition_succ (L i : Nat) :
    isDoubledPosition L (i + 1) = !isDoubledPosition L i := by
  unfold isDoubledPosition
  rcases Nat.mod_two_eq_zero_or_one i with h | h <;>
    have h2 : (i + 1) % 2 = 1 - i % 2 := by omega
  all_goals split <;> simp [h, h2]

/-- The positional sum from index `i` on is an alternating sum. -/
theorem positional_enumFrom (L : Nat) (l : List Char) (i : Nat) :
    ((l.enumFrom i).map (fun p =>
      if isDoubledPosition L p.1 then addDigits (2 * digitOf p.2) else digitOf p.2)).sum
      = alternating (isDoubledPosition L i) l := by
  induction l generalizing i with
  | nil => simp [alternating]
  | cons c cs ih =>
    simp only [List.enumFrom_cons, List.map_cons, List.sum_cons, alternating, contribution,
      ih (i + 1), isDoubledPosition_succ]

/-- The running sum of the specification is the alternating sum of the loops. -/
theorem positionalSum_eq (s : List Char) :
    positionalSum s = alternating (decide (s.length % 2 = 0)) s := by
  have h0 : isDoubledPosition s.length 0 = decide (s.length % 2 = 0) := by
    unfold isDoubledPosition
    split <;> simp [*]
  unfold positionalSum
  rw [List.enum_eq_enumFrom, positional_enumFrom, h0]

/-- The alternating sum of a list extended by one character at its end. -/
theorem alternating_concat (l : List Char) (b : Bool) (x : Char) :
    alternating b (l ++ [x])
      = alternating b l + contribution (if l.length % 2 = 0 then b else !b) x := by
  induction l generalizing b with
  | nil => simp [alternating]
  | cons c cs ih =>
    rw [List.cons_append, alternating, alternating, ih (!b), List.length_cons]
    rcases Nat.mod_two_eq_zero_or_one cs.length with h | h <;>
      have h2 : (cs.length + 1) % 2 = 1 - cs.length % 2 := by omega
    all_goals simp [h, h2]; ring

/-- Weighting from the right, rightmost plain, is weighting from the left with the
first character doubled exactly when the length is even. -/
theorem alternating_reverse (l : List Char) :
    alternating false l.reverse = alternating (decide (l.length % 2 = 0)) l := by
  induction l with
  | nil => simp [alternating]
  | cons c cs ih =>
    rw [List.reverse_cons, alternating_concat, ih, List.length_reverse]
    rcases Nat.mod_two_eq_zero_or_one cs.length with h | h <;>
      have h2 : (cs.length + 1) % 2 = 1 - cs.length % 2 := by omega
    all_goals simp [h, h2, alternating]; ring

/-- The total of the standard check from index `i` on, for digits, is an alternating
sum. -/
theorem standard_enumFrom (l : List Char) (hl : IsDigitString l) (i : Nat) :
    (((l.enumFrom i).map (fun p =>
      let d := p.2.toNat - '0'.toNat
      if p.1 % 2 = 1 then decimalDigitSum (2 * d) else d)).sum : Int)
      = alternating (decide (i % 2 = 1)) l := by
  induction l generalizing i with
  | nil => simp [alternating]
  | cons c cs ih =>
    have hc : c ∈ decimalDigits := hl c (List.mem_cons_self _ _)
    have hcs : IsDigitString cs := fun x hx => hl x (List.mem_cons_of_mem _ hx)
    obtain ⟨_, _, h3, h4, _, _⟩ := digit_facts c hc
    have h48 : '0'.toNat = 48 := rfl
    rw [h48] at h3 h4
    have ih2 := ih hcs (i + 1)
    simp only [List.enumFrom_cons, List.map_cons, List.sum_cons, Nat.cast_add, alternating,
      contribution] at ih2 ⊢
    rw [ih2]
    rcases Nat.mod_two_eq_zero_or_one i with h | h <;>
      have h2 : (i + 1) % 2 = 1 - i % 2 := by omega
    all_goals simp [h, h2, h3, h4]

/-- The total of the standard check is the alternating sum of the loops. -/
theorem standardLuhnTotal_eq (s : List Char) (hs : IsDigitString s) :
    (standardLuhnTotal s : Int) = alternating (decide (s.length % 2 = 0)) s := by
  have hr : IsDigitString s.reverse := fun c hc => hs c (List.mem_reverse.mp hc)
  have h1 := standard_enumFrom s.reverse hr 0
  simp only [Nat.zero_mod, zero_ne_one, decide_False] at h1
  rw [alternating_reverse] at h1
  rw [← h1]
  rfl

/-- Replacing one character changes the alternating sum by the difference of the two
contributions, taken with the same weight. -/
theorem alternating_set (l : List Char) (b : Bool) (k : Nat) (c d : Char)
    (hk : l[k]? = some c) :
    ∃ bk, alternating b (l.set k d) = alternating b l - contribution bk c + contribution bk d := by
  induction l generalizing b k with
  | nil => simp at hk
  | cons x xs ih =>
    cases k with
    | zero =>
      simp only [List.getElem?_cons_zero, Option.some.injEq] at hk
      subst hk
      exact ⟨b, by simp only [List.set_cons_zero, alternating]; ring⟩
    | succ k =>
      simp only [List.getElem?_cons_succ] at hk
      obtain ⟨bk, hbk⟩ := ih (!b) k hk
      exact ⟨bk, by simp only [List.set_cons_succ, alternating, hbk]; ring⟩

/-- A string that `luhn` accepts passed the length gate. -/
theorem luhn_true_length (s : List Char) (hv : luhn s = some true) :
    13 ≤ s.length ∧ s.length ≤ 16 := by
  by_contra hlen
  have : luhn s = some false := by
    unfold luhn
    simp only [MIN_LENGTH, MAX_LENGTH, ge_iff_le]
    rw [if_pos hlen]
  rw [this] at hv
  exact absurd hv (by decide)

/-- The iterations of the even-length loop over a suffix of digits: the indices read,
and the safety of each iteration. -/
theorem traceLoop_even (l pre : List Char) (sum : Int) (hl : IsDigitString l) :
    (traceLoop (evenBody (pre ++ l)) l.length pre.length sum).map (fun it => it.index)
        = List.range' pre.length l.length ∧
      ∀ it ∈ traceLoop (evenBody (pre ++ l)) l.length pre.length sum,
        SafeIteration (pre ++ l) it := by
  induction l generalizing pre sum with
  | nil => simp [traceLoop]
  | cons c cs ih =>
    have hc : c ∈ decimalDigits := hl c (List.mem_cons_self _ _)
    have hcs : IsDigitString cs := fun x hx => hl x (List.mem_cons_of_mem _ hx)
    obtain ⟨h0, h9, _, _, _, _⟩ := digit_facts c hc
    have hs : pre ++ c :: cs = (pre ++ [c]) ++ cs := by simp
    have ih2 := ih (pre ++ [c])
    rw [← hs] at ih2
    simp only [List.length_append, List.length_singleton] at ih2
    have hlen : pre.length < (pre ++ c :: cs).length := by simp
    simp only [List.length_cons, traceLoop, evenBody, charAt_append]
    by_cases hp : pre.length % 2 = 0
    · simp only [hp, if_true, List.map_cons, List.range'_succ, List.mem_cons, forall_eq_or_imp]
      refine ⟨by rw [(ih2 _ hcs).1], ⟨hlen, ⟨c, charAt_append _ _ _, rfl⟩, h0, h9, ?_⟩,
        (ih2 _ hcs).2⟩
      intro a ha
      simp only [Option.some.injEq] at ha
      omega
    · simp only [hp, if_false, List.map_cons, List.range'_succ, List.mem_cons, forall_eq_or_imp]
      refine ⟨by rw [(ih2 _ hcs).1], ⟨hlen, ⟨c, charAt_append _ _ _, rfl⟩, h0, h9, ?_⟩,
        (ih2 _ hcs).2⟩
      intro a ha
      simp at ha

/-- The iterations of the odd-length loop over a suffix of digits: the indices read,
and the safety of each iteration. -/
theorem traceLoop_odd (l pre : List Char) (sum : Int) (hl : IsDigitString l) :
    (traceLoop (oddBody (pre ++ l)) l.length pre.length sum).map (fun it => it.index)
        = List.range' pre.length l.length ∧
      ∀ it ∈ traceLoop (oddBody (pre ++ l)) l.length pre.length sum,
        SafeIteration (pre ++ l) it := by
  induction l generalizing pre sum with
  | nil => simp [traceLoop]
  | cons c cs ih =>
    have hc : c ∈ decimalDigits := hl c (List.mem_cons_self _ _)
    have hcs : IsDigitString cs := fun x hx => hl x (List.mem_cons_of_mem _ hx)
    obtain ⟨h0, h9, _, _, _, _⟩ := digit_facts c hc
    have hs : pre ++ c :: cs = (pre ++ [c]) ++ cs := by simp
    have ih2 := ih (pre ++ [c])
    rw [← hs] at ih2
    simp only [List.length_append, List.length_singleton] at ih2
    have hlen : pre.length < (pre ++ c :: cs).length := by simp
    simp only [List.length_cons, traceLoop, oddBody, charAt_append]
    by_cases hp : pre.length % 2 = 0
    · simp only [hp, if_true, List.map_cons, List.range'_succ, List.mem_cons, forall_eq_or_imp]
      refine ⟨by rw [(ih2 _ hcs).1], ⟨hlen, ⟨c, charAt_append _ _ _, rfl⟩, h0, h9, ?_⟩,
        (ih2 _ hcs).2⟩
      intro a ha
      simp at ha
    · simp only [hp, if_false, List.map_cons, List.range'_succ, List.mem_cons, forall_eq_or_imp]
      refine ⟨by rw [(ih2 _ hcs).1], ⟨hlen, ⟨c, charAt_append _ _ _, rfl⟩, h0, h9, ?_⟩,
        (ih2 _ hcs).2⟩
      intro a ha
      simp only [Option.some.injEq] at ha
      omega

/-- A loop that returns performed all its iterations, and the value it returns is
the `sum` of the last one (the initial `sum` when there was none). -/
theorem runLoop_traceLoop (body : Nat → Int → Option Iteration) (n i : Nat) (sum r : Int)
    (h : runLoop body n i sum = some r) :
    (traceLoop body n i sum).length = n ∧
      ((traceLoop body n i sum).map (fun it => it.sum)).getLastD sum = r := by
  induction n generalizing i sum with
  | zero =>
    simp only [runLoop, Option.some.injEq] at h
    simp [traceLoop, h]
  | succ n ih =>
    unfold runLoop at h
    unfold traceLoop
    cases hb : body i sum with
    | none => simp [hb] at h
    | some it =>
      simp only [hb] at h
      obtain ⟨h1, h2⟩ := ih (i + 1) it.sum h
      simp only [List.length_cons, h1, List.map_cons, List.getLastD_cons, h2, and_self]

/-- The function `luhn` returns a boolean on every string. -/
theorem luhn_returns (s : List Char) : ∃ b, luhn s = some b := by
  by_cases hlen : 13 ≤ s.length ∧ s.length ≤ 16
  · exact ⟨_, luhn_eq_alternating s hlen.1 hlen.2⟩
  · refine ⟨false, ?_⟩
    unfold luhn
    simp only [MIN_LENGTH, MAX_LENGTH, ge_iff_le]
    rw [if_pos hlen]

/-- The read loop of `getInput` consumes at least one character of a non-empty
input. -/
theorem getInputLoop_rest (stdin : List Char) (st : InputState) (h : stdin ≠ []) :
    (getInputLoop stdin st).2.length < stdin.length := by
  induction stdin generalizing st with
  | nil => exact absurd rfl h
  | cons c rest ih =>
    unfold getInputLoop
    by_cases hc : c = '\n'
    · simp [hc]
    · simp only [hc, if_false, List.length_cons]
      cases rest with
      | nil => simp [getInputLoop]
      | cons c2 rest2 =>
        have := ih ⟨st.length + 1,
          if decide (st.length + 1 > st.capacity) then st.capacity * 2 else st.capacity,
          st.buffer ++ [c],
          st.writes ++ [(st.length,
            if decide (st.length + 1 > st.capacity) then st.capacity * 2 else st.capacity)],
          st.reallocated || decide (st.length + 1 > st.capacity)⟩ (by simp)
        simp only [List.length_cons] at this ⊢
        omega

/-- A call of `getInput` consumes at least one character of a non-empty input. -/
theorem getInput_rest (stdin : List Char) (h : stdin ≠ []) :
    (getInput stdin).rest.length < stdin.length :=
  getInputLoop_rest stdin ⟨0, MAX_LENGTH + 1, [], [], false⟩ h

/-- With more rounds allowed than characters on the input, the read loop of `main`
ends. -/
theorem mainLoop_returns (fuel : Nat) (stdin : List Char) (out : List String)
    (h : stdin.length < fuel) : ∃ r, mainLoop fuel stdin out = some r := by
  induction fuel generalizing stdin out with
  | zero => omega
  | succ fuel ih =>
    unfold mainLoop
    by_cases hd : (getInput stdin).defined = true
    · by_cases hn : isNumeric (some (getInput stdin).text) = false
      · simp only [hd, hn, Bool.not_true, Bool.false_eq_true, if_false, beq_self_eq_true, if_true]
        apply ih
        by_cases he : stdin = []
        · subst he
          exact absurd hn (by decide)
        · have := getInput_rest stdin he
          omega
      · simp only [Bool.not_eq_false] at hn
        simp [hd, hn]
    · simp only [Bool.not_eq_true] at hd
      simp [hd]

/-- The function `checkPrefix` prints some text on every string. -/
theorem checkPrefix_returns (s : List Char) : ∃ t, checkPrefix s = some t :=
  ⟨_, checkPrefix_eq_firstMatch s⟩

/-- Every run of `main` ends: it returns status 0, or it reaches undefined
behaviour. -/
theorem main_outcome (stdin : List Char) :
    ∃ out, main stdin = some (Outcome.exit out 0) ∨ main stdin = some (Outcome.undefined out) := by
  obtain ⟨r, hr⟩ := mainLoop_returns (stdin.length + 1) stdin [] (by omega)
  unfold main
  rw [hr]
  cases r with
  | undefined out => exact ⟨out, Or.inr rfl⟩
  | accepted input out =>
    obtain ⟨b, hb⟩ := luhn_returns input
    obtain ⟨t, ht⟩ := checkPrefix_returns input
    simp only [hb]
    cases b
    · exact ⟨_, Or.inl rfl⟩
    · simp only [ht]
      exact ⟨_, Or.inl rfl⟩

/-- Every value in `0..9` is the value of a digit character. -/
theorem digit_of_value (k : Int) (h0 : 0 ≤ k) (h9 : k ≤ 9) :
    ∃ c, c ∈ decimalDigits ∧ digitOf c = k := by
  interval_cases k
  · exact ⟨'0', by decide, by decide⟩
  · exact ⟨'1', by decide, by decide⟩
  · exact ⟨'2', by decide, by decide⟩
  · exact ⟨'3', by decide, by decide⟩
  · exact ⟨'4', by decide, by decide⟩
  · exact ⟨'5', by decide, by decide⟩
  · exact ⟨'6', by decide, by decide⟩
  · exact ⟨'7', by decide, by decide⟩
  · exact ⟨'8', by decide, by decide⟩
  · exact ⟨'9', by decide, by decide⟩

/-- The last character of a string that passes the length gate is a plain
position: appending `c` adds `digitOf c` to the sum of the loops. -/
theorem alternating_append_last (p : List Char) (c : Char) :
    alternating (decide ((p ++ [c]).length % 2 = 0)) (p ++ [c])
      = alternating (decide ((p ++ [c]).length % 2 = 0)) p + digitOf c := by
  rw [alternating_concat]
  congr 1
  rcases Nat.mod_two_eq_zero_or_one p.length with h | h <;>
    have h2 : (p.length + 1) % 2 = 1 - p.length % 2 := by omega
  all_goals simp [h, h2, contribution]

/-- A leading `'0'` adds nothing and shifts every weight, as the change of the
parity of the length does. -/
theorem alternating_leading_zero (s : List Char) :
    alternating (decide (('0' :: s).length % 2 = 0)) ('0' :: s)
      = alternating (decide (s.length % 2 = 0)) s := by
  have h0 : ∀ b, contribution b '0' = 0 := by intro b; cases b <;> decide
  rw [alternating, h0, List.length_cons, zero_add]
  congr 1
  rcases Nat.mod_two_eq_zero_or_one s.length with h | h <;>
    have h2 : (s.length + 1) % 2 = 1 - s.length % 2 := by omega
  all_goals simp [h, h2]

/-- The running sum of the even-length loop over a suffix of digits grows by at
most 9 per iteration and never decreases below 0. -/
theorem traceLoop_even_sum (l pre : List Char) (sum : Int) (hl : IsDigitString l)
    (h0 : 0 ≤ sum) (h9 : sum ≤ 9 * pre.length) :
    ∀ it ∈ traceLoop (evenBody (pre ++ l)) l.length pre.length sum,
      0 ≤ it.sum ∧ it.sum ≤ 9 * (it.index + 1) := by
  induction l generalizing pre sum with
  | nil => simp [traceLoop]
  | cons c cs ih =>
    have hc : c ∈ decimalDigits := hl c (List.mem_cons_self _ _)
    have hcs : IsDigitString cs := fun x hx => hl x (List.mem_cons_of_mem _ hx)
    obtain ⟨d0, d9, _, _, a0, a9⟩ := digit_facts c hc
    have hs : pre ++ c :: cs = (pre ++ [c]) ++ cs := by simp
    have ih2 := ih (pre ++ [c])
    rw [← hs] at ih2
    simp only [List.length_append, List.length_singleton, Nat.cast_add, Nat.cast_one] at ih2
    simp only [List.length_cons, traceLoop, evenBody, charAt_append]
    by_cases hp : pre.length % 2 = 0
    · simp only [hp, if_true, List.mem_cons, forall_eq_or_imp]
      exact ⟨⟨by omega, by omega⟩, ih2 _ hcs (by omega) (by omega)⟩
    · simp only [hp, if_false, List.mem_cons, forall_eq_or_imp]
      exact ⟨⟨by omega, by omega⟩, ih2 _ hcs (by omega) (by omega)⟩

/-- The running sum of the odd-length loop over a suffix of digits grows by at
most 9 per iteration and never decreases below 0. -/
theorem traceLoop_odd_sum (l pre : List Char) (sum : Int) (hl : IsDigitString l)
    (h0 : 0 ≤ sum) (h9 : sum ≤ 9 * pre.length) :
    ∀ it ∈ traceLoop (oddBody (pre ++ l)) l.length pre.length sum,
      0 ≤ it.sum ∧ it.sum ≤ 9 * (it.index + 1) := by
  induction l generalizing pre sum with
  | nil => simp [traceLoop]
  | cons c cs ih =>
    have hc : c ∈ decimalDigits := hl c (List.mem_cons_self _ _)
    have hcs : IsDigitString cs := fun x hx => hl x (List.mem_cons_of_mem _ hx)
    obtain ⟨d0, d9, _, _, a0, a9⟩ := digit_facts c hc
    have hs : pre ++ c :: cs = (pre ++ [c]) ++ cs := by simp
    have ih2 := ih (pre ++ [c])
    rw [← hs] at ih2
    simp only [List.length_append, List.length_singleton, Nat.cast_add, Nat.cast_one] at ih2
    simp only [List.length_cons, traceLoop, oddBody, charAt_append]
    by_cases hp : pre.length % 2 = 0
    · simp only [hp, if_true, List.mem_cons, forall_eq_or_imp]
      exact ⟨⟨by omega, by omega⟩, ih2 _ hcs (by omega) (by omega)⟩
    · simp only [hp, if_false, List.mem_cons, forall_eq_or_imp]
      exact ⟨⟨by omega, by omega⟩, ih2 _ hcs (by omega) (by omega)⟩

/-- The iterations of `luhn` on a string of digits: one per character past the
length gate, each inside the string and with a running sum between 0 and 9 times
the number of characters read so far. -/
theorem luhnTrace_sum (s : List Char) (hs : IsDigitString s) (hL : 13 ≤ s.length)
    (hU : s.length ≤ 16) :
    (luhnTrace s).length = s.length ∧
      ∀ it ∈ luhnTrace s, it.index < s.length ∧ 0 ≤ it.sum ∧ it.sum ≤ 9 * (it.index + 1) := by
  have he := traceLoop_even s [] 0 hs
  have ho := traceLoop_odd s [] 0 hs
  have hes := traceLoop_even_sum s [] 0 hs (le_refl _) (by simp)
  have hos := traceLoop_odd_sum s [] 0 hs (le_refl _) (by simp)
  simp only [List.nil_append, List.length_nil] at he ho hes hos
  unfold luhnTrace
  simp only [MIN_LENGTH, MAX_LENGTH, ge_iff_le]
  rw [if_neg (not_not.mpr ⟨hL, hU⟩)]
  by_cases hp : s.length % 2 = 0
  · rw [if_pos hp]
    refine ⟨?_, fun it hit => ⟨(he.2 it hit).1, hes it hit⟩⟩
    have := congrArg List.length he.1
    simpa using this
  · rw [if_neg hp]
    refine ⟨?_, fun it hit => ⟨(ho.2 it hit).1, hos it hit⟩⟩
    have := congrArg List.length ho.1
    simpa using this

/-- The value of a traced `&&` is the short-circuit conjunction of the values. -/
theorem tAnd_value (a b : Traced) : (tAnd a b).value = cAnd a.value b.value := by
  unfold tAnd cAnd
  rcases a.value with _ | _ | _ <;> rfl

/-- The value of a traced `||` is the short-circuit disjunction of the values. -/
theorem tOr_value (a b : Traced) : (tOr a b).value = cOr a.value b.value := by
  unfold tOr cOr
  rcases a.value with _ | _ | _ <;> rfl

/-- The cascade of `checkPrefix` is the evaluation of its four rules in order. -/
theorem checkPrefix_eq_evalRules (s : List Char) : checkPrefix s = evalRules (codeRules s) := by
  simp only [checkPrefix, evalRules, codeRules, visaCondition, mastercardCondition,
    discoverCondition, amexCondition, tAnd_value, tOr_value, tTest, tCharEq]


/-- A traced `&&` is true only when both operands are. -/
theorem tAnd_true (a b : Traced) (h : (tAnd a b).value = some true) :
    a.value = some true ∧ b.value = some true := by
  unfold tAnd at h
  rcases ha : a.value with _ | _ | _ <;> simp_all

/-- The reads of a traced `&&` stay below `n` when those of the first operand do
and those of the second do whenever the first is true. -/
theorem tAnd_reads (n : Nat) (a b : Traced) (ha : ∀ i ∈ a.reads, i < n)
    (hb : a.value = some true → ∀ i ∈ b.reads, i < n) : ∀ i ∈ (tAnd a b).reads, i < n := by
  unfold tAnd
  rcases hv : a.value with _ | _ | _
  · simpa using ha
  · simpa using ha
  · intro i hi
    simp only [List.mem_append] at hi
    rcases hi with hi | hi
    · exact ha i hi
    · exact hb hv i hi

/-- The reads of a traced `||` stay below `n` when those of both operands do. -/
theorem tOr_reads (n : Nat) (a b : Traced) (ha : ∀ i ∈ a.reads, i < n)
    (hb : ∀ i ∈ b.reads, i < n) : ∀ i ∈ (tOr a b).reads, i < n := by
  unfold tOr
  rcases hv : a.value with _ | _ | _
  · simpa using ha
  · intro i hi
    simp only [List.mem_append] at hi
    rcases hi with hi | hi
    · exact ha i hi
    · exact hb i hi
  · simpa using ha

/-- A comparison `s[i] == c` reads index `i` only. -/
theorem tCharEq_reads (n : Nat) (s : List Char) (i : Nat) (c : Char) (h : i < n) :
    ∀ j ∈ (tCharEq s i c).reads, j < n := by
  intro j hj
  simp only [tCharEq, List.mem_singleton] at hj
  omega

/-- A length test reads nothing. -/
theorem tTest_reads (n : Nat) (b : Bool) : ∀ j ∈ (tTest b).reads, j < n := by
  intro j hj
  simp [tTest] at hj

/-- A length test that is true. -/
theorem tTest_true (b : Bool) (h : (tTest b).value = some true) : b = true := by
  simpa [tTest] using h

/-- The Visa condition reads inside the string. -/
theorem visaCondition_reads (s : List Char) : ∀ i ∈ (visaCondition s).reads, i < s.length := by
  apply tAnd_reads _ _ _ (tTest_reads _ _)
  intro h
  have := tTest_true _ h
  apply tCharEq_reads
  simp only [Bool.or_eq_true, beq_iff_eq] at this
  omega

/-- The Mastercard condition reads inside the string. -/
theorem mastercardCondition_reads (s : List Char) :
    ∀ i ∈ (mastercardCondition s).reads, i < s.length := by
  apply tAnd_reads _ _ _ (tTest_reads _ _)
  intro h
  have := tTest_true _ h
  apply tCharEq_reads
  simp only [beq_iff_eq] at this
  omega

/-- The Discover condition reads inside the string. -/
theorem discoverCondition_reads (s : List Char) :
    ∀ i ∈ (discoverCondition s).reads, i < s.length := by
  have len16 : (tTest (s.length == 16)).value = some true → s.length = 16 := by
    intro h
    simpa using tTest_true _ h
  have r1 : ∀ i ∈ (tAnd (tTest (s.length == 16)) (tCharEq s 0 '6')).reads, i < s.length :=
    tAnd_reads _ _ _ (tTest_reads _ _)
      (fun h => tCharEq_reads _ _ _ _ (by have := len16 h; omega))
  have r2 : ∀ i ∈ (tAnd (tAnd (tTest (s.length == 16)) (tCharEq s 0 '6'))
      (tCharEq s 1 '0')).reads, i < s.length :=
    tAnd_reads _ _ _ r1
      (fun h => tCharEq_reads _ _ _ _ (by have := len16 (tAnd_true _ _ h).1; omega))
  have r3 : ∀ i ∈ (tAnd (tAnd (tAnd (tTest (s.length == 16)) (tCharEq s 0 '6'))
      (tCharEq s 1 '0')) (tCharEq s 2 '1')).reads, i < s.length :=
    tAnd_reads _ _ _ r2
      (fun h => tCharEq_reads _ _ _ _
        (by have := len16 (tAnd_true _ _ (tAnd_true _ _ h).1).1; omega))
  exact tAnd_reads _ _ _ r3
    (fun h => tCharEq_reads _ _ _ _
      (by have := len16 (tAnd_true _ _ (tAnd_true _ _ (tAnd_true _ _ h).1).1).1; omega))

/-- The American Express condition reads inside the string. -/
theorem amexCondition_reads (s : List Char) : ∀ i ∈ (amexCondition s).reads, i < s.length := by
  have len15 : (tTest (s.length == 15)).value = some true → s.length = 15 := by
    intro h
    simpa using tTest_true _ h
  have r1 : ∀ i ∈ (tAnd (tTest (s.length == 15)) (tCharEq s 0 '3')).reads, i < s.length :=
    tAnd_reads _ _ _ (tTest_reads _ _)
      (fun h => tCharEq_reads _ _ _ _ (by have := len15 h; omega))
  apply tAnd_reads _ _ _ r1
  intro h
  have h15 := len15 (tAnd_true _ _ h).1
  exact tOr_reads _ _ _ (tCharEq_reads _ _ _ _ (by omega)) (tCharEq_reads _ _ _ _ (by omega))

/-- A cascade reads inside the string when each of its conditions does. -/
theorem cascadeReads_lt (n : Nat) (rules : List (Traced × String))
    (h : ∀ r ∈ rules, ∀ i ∈ r.1.reads, i < n) : ∀ i ∈ cascadeReads rules, i < n := by
  induction rules with
  | nil => simp [cascadeReads]
  | cons r rest ih =>
    have hr := h r (List.mem_cons_self _ _)
    have hrest := ih (fun x hx => h x (List.mem_cons_of_mem _ hx))
    unfold cascadeReads
    rcases hv : r.1.value with _ | _ | _
    · simpa using hr
    · intro i hi
      simp only [List.mem_append] at hi
      rcases hi with hi | hi
      · exact hr i hi
      · exact hrest i hi
    · simpa using hr

/-- Every index that `checkPrefix` reads is the index of a character. -/
theorem checkPrefixReads_lt (s : List Char) : ∀ i ∈ checkPrefixReads s, i < s.length := by
  apply cascadeReads_lt
  intro r hr
  simp only [codeRules, List.mem_cons, List.mem_singleton, List.not_mem_nil, or_false] at hr
  rcases hr with h | h | h | h <;> subst h
  · exact visaCondition_reads s
  · exact mastercardCondition_reads s
  · exact discoverCondition_reads s
  · exact amexCondition_reads s


/-- A traced `&&` is defined when its first operand is, and its second operand
is whenever the first is true. -/
theorem tAnd_defined (a b : Traced) (ha : a.value ≠ none)
    (hb : a.value = some true → b.value ≠ none) : (tAnd a b).value ≠ none := by
  unfold tAnd
  rcases hv : a.value with _ | _ | _
  · exact absurd hv ha
  · simp
  · simpa using hb hv

/-- A traced `||` of two defined operands is defined. -/
theorem tOr_defined (a b : Traced) (ha : a.value ≠ none) (hb : b.value ≠ none) :
    (tOr a b).value ≠ none := by
  unfold tOr
  rcases hv : a.value with _ | _ | _
  · exact absurd hv ha
  · simpa using hb
  · simp

/-- A comparison at an index of the string is defined. -/
theorem tCharEq_defined (s : List Char) (i : Nat) (c : Char) (h : i < s.length) :
    (tCharEq s i c).value ≠ none := by
  simp [tCharEq, charEq, charAt, List.getElem?_eq_getElem h]

/-- A comparison at index 0 that is true fixes the first character. -/
theorem tCharEq_zero_true (s : List Char) (c : Char)
    (h : (tCharEq s 0 c).value = some true) : s.head? = some c := by
  cases s with
  | nil => simp [tCharEq, charEq, charAt] at h
  | cons x t => simpa [tCharEq, charEq, charAt] using h

/-- Each condition of `checkPrefix` is defined on every string. -/
theorem conditions_defined (s : List Char) : ∀ r ∈ codeRules s, r.1.value ≠ none := by
  have t : ∀ b, (tTest b).value ≠ none := by intro b; simp [tTest]
  have len16 : (tTest (s.length == 16)).value = some true → s.length = 16 := by
    intro h
    simpa using tTest_true _ h
  have len15 : (tTest (s.length == 15)).value = some true → s.length = 15 := by
    intro h
    simpa using tTest_true _ h
  intro r hr
  simp only [codeRules, List.mem_cons, List.mem_singleton, List.not_mem_nil, or_false] at hr
  rcases hr with h | h | h | h <;> subst h
  · refine tAnd_defined _ _ (t _) (fun h => tCharEq_defined _ _ _ ?_)
    have := tTest_true _ h
    simp only [Bool.or_eq_true, beq_iff_eq] at this
    omega
  · exact tAnd_defined _ _ (t _) (fun h => tCharEq_defined _ _ _ (by have := len16 h; omega))
  · have d1 := tAnd_defined (tTest (s.length == 16)) (tCharEq s 0 '6') (t _)
      (fun h => tCharEq_defined _ _ _ (by have := len16 h; omega))
    have d2 := tAnd_defined _ (tCharEq s 1 '0') d1
      (fun h => tCharEq_defined _ _ _ (by have := len16 (tAnd_true _ _ h).1; omega))
    have d3 := tAnd_defined _ (tCharEq s 2 '1') d2
      (fun h => tCharEq_defined _ _ _
        (by have := len16 (tAnd_true _ _ (tAnd_true _ _ h).1).1; omega))
    exact tAnd_defined _ (tCharEq s 3 '1') d3
      (fun h => tCharEq_defined _ _ _
        (by have := len16 (tAnd_true _ _ (tAnd_true _ _ (tAnd_true _ _ h).1).1).1; omega))
  · have d1 := tAnd_defined (tTest (s.length == 15)) (tCharEq s 0 '3') (t _)
      (fun h => tCharEq_defined _ _ _ (by have := len15 h; omega))
    refine tAnd_defined _ _ d1 (fun h => ?_)
    have h15 := len15 (tAnd_true _ _ h).1
    exact tOr_defined _ _ (tCharEq_defined _ _ _ (by omega)) (tCharEq_defined _ _ _ (by omega))

/-- The first character that each condition of `checkPrefix` requires. -/
theorem conditions_first_char (s : List Char) :
    ((visaCondition s).value = some true → s.head? = some '4') ∧
      ((mastercardCondition s).value = some true → s.head? = some '5') ∧
      ((discoverCondition s).value = some true → s.head? = some '6') ∧
      ((amexCondition s).value = some true → s.head? = some '3') := by
  refine ⟨fun h => ?_, fun h => ?_, fun h => ?_, fun h => ?_⟩
  · exact tCharEq_zero_true _ _ (tAnd_true _ _ h).2
  · exact tCharEq_zero_true _ _ (tAnd_true _ _ h).2
  · exact tCharEq_zero_true _ _
      (tAnd_true _ _ (tAnd_true _ _ (tAnd_true _ _ (tAnd_true _ _ h).1).1).1).2
  · exact tCharEq_zero_true _ _ (tAnd_true _ _ (tAnd_true _ _ h).1).2

/-- No two conditions of `checkPrefix` hold of the same string. -/
theorem conditions_exclusive (s : List Char) :
    (codeRules s).Pairwise (fun x y => ¬ (x.1.value = some true ∧ y.1.value = some true)) := by
  obtain ⟨hv, hm, hd, ha⟩ := conditions_first_char s
  have ne : ∀ {a b : Char}, a ≠ b → s.head? = some a → s.head? = some b → False := by
    intro a b hab h1 h2
    rw [h1] at h2
    exact hab (Option.some.inj h2)
  simp only [codeRules, List.pairwise_cons, List.mem_cons, List.mem_singleton,
    List.not_mem_nil, or_false, forall_eq_or_imp, forall_eq, List.Pairwise.nil, and_true,
    IsEmpty.forall_iff, implies_true]
  refine ⟨⟨?_, ?_, ?_⟩, ⟨?_, ?_⟩, ?_⟩
  · rintro ⟨h1, h2⟩; exact ne (by decide) (hv h1) (hm h2)
  · rintro ⟨h1, h2⟩; exact ne (by decide) (hv h1) (hd h2)
  · rintro ⟨h1, h2⟩; exact ne (by decide) (hv h1) (ha h2)
  · rintro ⟨h1, h2⟩; exact ne (by decide) (hm h1) (hd h2)
  · rintro ⟨h1, h2⟩; exact ne (by decide) (hm h1) (ha h2)
  · rintro ⟨h1, h2⟩; exact ne (by decide) (hd h1) (ha h2)

/-- A cascade over defined, pairwise exclusive conditions gives the same result
in any order. -/
theorem evalRules_perm (l₁ l₂ : List (Traced × String)) (h : l₁.Perm l₂)
    (hex : l₁.Pairwise (fun x y => ¬ (x.1.value = some true ∧ y.1.value = some true)))
    (hdef : ∀ r ∈ l₁, r.1.value ≠ none) : evalRules l₁ = evalRules l₂ := by
  induction h with
  | nil => rfl
  | cons x _ ih =>
    rw [List.pairwise_cons] at hex
    unfold evalRules
    rw [ih hex.2 (fun r hr => hdef r (List.mem_cons_of_mem _ hr))]
  | swap x y l =>
    have hx := hdef x (by simp)
    have hy := hdef y (by simp)
    have hxy : ¬ (y.1.value = some true ∧ x.1.value = some true) := by
      rw [List.pairwise_cons] at hex
      exact hex.1 x (by simp)
    simp only [evalRules]
    rcases hvx : x.1.value with _ | _ | _ <;> rcases hvy : y.1.value with _ | _ | _ <;>
      simp_all
  | trans h₁₂ _ ih₁ ih₂ =>
    rw [ih₁ hex hdef]
    apply ih₂
    · exact (h₁₂.pairwise_iff (fun {a b} hab hba => hab ⟨hba.2, hba.1⟩)).mp hex
    · exact fun r hr => hdef r (h₁₂.mem_iff.mpr hr)

/-- The loop of `getInput` keeps `length` within `capacity` and every store of a
character inside the buffer. -/
theorem getInputLoop_writes (stdin : List Char) (st : InputState) (hcap : 0 < st.capacity)
    (hlen : st.length ≤ st.capacity) (hw : ∀ w ∈ st.writes, w.1 < w.2) :
    0 < (getInputLoop stdin st).1.capacity ∧
      (getInputLoop stdin st).1.length ≤ (getInputLoop stdin st).1.capacity ∧
      ∀ w ∈ (getInputLoop stdin st).1.writes, w.1 < w.2 := by
  induction stdin generalizing st with
  | nil => exact ⟨hcap, hlen, hw⟩
  | cons c rest ih =>
    unfold getInputLoop
    by_cases hc : c = '\n'
    · simp only [hc, if_true]
      exact ⟨hcap, hlen, hw⟩
    · simp only [hc, if_false]
      apply ih
      · show 0 < (if decide (st.length + 1 > st.capacity) then st.capacity * 2 else st.capacity)
        split <;> omega
      · show st.length + 1 ≤
          (if decide (st.length + 1 > st.capacity) then st.capacity * 2 else st.capacity)
        split
        · omega
        · rename_i h
          simp only [decide_eq_true_eq, not_lt] at h
          omega
      · intro w hw2
        simp only [List.mem_append, List.mem_singleton] at hw2
        rcases hw2 with h | h
        · exact hw w h
        · subst h
          show st.length <
            (if decide (st.length + 1 > st.capacity) then st.capacity * 2 else st.capacity)
          split
          · omega
          · rename_i h
            simp only [decide_eq_true_eq, not_lt] at h
            omega

/-- In a call of `getInput` every store of a character is inside the buffer, and
the terminator is stored at an index that is at most the capacity. -/
theorem getInput_writes (stdin : List Char) :
    ∃ n cap, (getInput stdin).writes.getLast? = some (n, cap) ∧ n ≤ cap ∧
      ∀ w ∈ (getInput stdin).writes.dropLast, w.1 < w.2 := by
  obtain ⟨_, h2, h3⟩ := getInputLoop_writes stdin ⟨0, MAX_LENGTH + 1, [], [], false⟩
    (by decide) (by decide) (by simp)
  refine ⟨_, _, ?_, h2, ?_⟩
  · simp [getInput]
  · simpa [getInput] using h3


/-- When the read loop of `main` accepts a string, that string is the first line
that `isNumeric` accepts: `k` lines were read and rejected before it, every read
left main's pointer usable, and one prompt was printed per line read. -/
theorem mainLoop_accepted (fuel : Nat) (stdin : List Char) (out : List String)
    (s : List Char) (out' : List String)
    (h : mainLoop fuel stdin out = some (LoopResult.accepted s out')) :
    ∃ k, (∀ j, j < k → isNumeric (some (getInput (afterLines j stdin)).text) = false) ∧
      (∀ j, j ≤ k → (getInput (afterLines j stdin)).defined = true) ∧
      s = (getInput (afterLines k stdin)).text ∧ isNumeric (some s) = true ∧
      out' = out ++ List.replicate (k + 1) PROMPT := by
  induction fuel generalizing stdin out with
  | zero => simp [mainLoop] at h
  | succ fuel ih =>
    unfold mainLoop at h
    by_cases hd : (getInput stdin).defined = true
    · by_cases hn : isNumeric (some (getInput stdin).text) = false
      · simp only [hd, hn, Bool.not_true, Bool.false_eq_true, if_false, beq_self_eq_true,
          if_true] at h
        obtain ⟨k, h1, h2, h3, h4, h5⟩ := ih _ _ h
        refine ⟨k + 1, ?_, ?_, h3, h4, ?_⟩
        · intro j hj
          cases j with
          | zero => exact hn
          | succ j => exact h1 j (by omega)
        · intro j hj
          cases j with
          | zero => exact hd
          | succ j => exact h2 j (by omega)
        · rw [h5, List.append_assoc, List.singleton_append, ← List.replicate_succ]
      · simp only [Bool.not_eq_false] at hn
        simp only [hd, hn, Bool.not_true, Bool.false_eq_true, if_false,
          Bool.true_eq_false, beq_iff_eq, Option.some.injEq, LoopResult.accepted.injEq] at h
        obtain ⟨h1, h2⟩ := h
        refine ⟨0, ?_, ?_, h1.symm, by rw [← h1]; exact hn, ?_⟩
        · intro j hj
          omega
        · intro j hj
          have : j = 0 := by omega
          subst this
          exact hd
        · rw [← h2]
          rfl
    · simp only [Bool.not_eq_true] at hd
      simp [hd] at h

/-- The verdict text of a run that printed prompts and then one more chunk that
is not the prompt is that chunk. -/
theorem verdictText_prompts (k : Nat) (chunk : String) (h : (chunk == PROMPT) = false) :
    verdictText (List.replicate k PROMPT ++ [chunk]) = chunk := by
  induction k with
  | zero => simp [verdictText, stdoutText, List.dropWhile, h, String.join]
  | succ k ih =>
    simp only [verdictText, List.replicate_succ, List.cons_append, List.dropWhile,
      beq_self_eq_true] at ih ⊢
    exact ih

/-- A run of `main` whose read loop accepts `s`, when `luhn` rejects `s`: the
output is the prompts followed by `invalid` and a newline, with status 0. -/
theorem main_invalid (stdin s : List Char) (out : List String)
    (hacc : mainLoop (stdin.length + 1) stdin [] = some (LoopResult.accepted s out))
    (hl : luhn s = some false) :
    main stdin = some (Outcome.exit (out ++ ["invalid\n"]) 0) ∧
      (∃ k, out = List.replicate k PROMPT) ∧
      verdictText (out ++ ["invalid\n"]) = "invalid\n" := by
  obtain ⟨k, _, _, _, _, hout⟩ := mainLoop_accepted _ _ _ _ _ hacc
  rw [List.nil_append] at hout
  refine ⟨?_, ⟨k + 1, hout⟩, ?_⟩
  · unfold main
    rw [hacc]
    simp only [hl]
  · rw [hout]
    exact verdictText_prompts _ _ (by decide)

/-- A run of `main` that returns: it read and rejected `k` lines, accepted the
next one as the string `s` of digits, applied `luhn` to `s` and printed, after
one prompt per line read, the verdict of `s`. -/
theorem main_verdict_of_first_accepted (stdin : List Char) (o : List String) (status : Int)
    (h : main stdin = some (Outcome.exit o status)) :
    ∃ k s, (∀ j, j < k → isNumeric (some (getInput (afterLines j stdin)).text) = false) ∧
      s = (getInput (afterLines k stdin)).text ∧ isNumeric (some s) = true ∧
      IsDigitString s ∧ status = 0 ∧
      ((luhn s = some false ∧ o = List.replicate (k + 1) PROMPT ++ ["invalid\n"]) ∨
        (luhn s = some true ∧ ∃ name, checkPrefix s = some name ∧
          o = List.replicate (k + 1) PROMPT ++ ["valid ", name])) := by
  unfold main at h
  rcases hr : mainLoop (stdin.length + 1) stdin [] with _ | r
  · simp [hr] at h
  · cases r with
    | undefined out => simp [hr] at h
    | accepted s out =>
      obtain ⟨k, h1, _, h3, h4, h5⟩ := mainLoop_accepted _ _ _ _ _ hr
      rw [List.nil_append] at h5
      refine ⟨k, s, h1, h3, h4, (isNumericLoop_iff s).mp h4, ?_⟩
      simp only [hr] at h
      obtain ⟨b, hb⟩ := luhn_returns s
      obtain ⟨t, ht⟩ := checkPrefix_returns s
      cases b
      · simp only [hb, Option.some.injEq, Outcome.exit.injEq] at h
        exact ⟨h.2.symm, Or.inl ⟨hb, by rw [← h.1, h5]⟩⟩
      · simp only [hb, ht, Option.some.injEq, Outcome.exit.injEq] at h
        exact ⟨h.2.symm, Or.inr ⟨hb, t, ht, by rw [← h.1, h5]; simp⟩⟩

/-- At most one condition of `checkPrefix` holds of a string. -/
theorem conditions_countP (s : List Char) :
    (codeRules s).countP (fun r => r.1.value == some true) ≤ 1 := by
  have hex := conditions_exclusive s
  simp only [codeRules, List.pairwise_cons, List.mem_cons, List.mem_singleton,
    List.not_mem_nil, or_false, forall_eq_or_imp, forall_eq, List.Pairwise.nil, and_true,
    IsEmpty.forall_iff, implies_true] at hex
  simp only [codeRules, List.countP_cons, List.countP_nil, beq_iff_eq, zero_add]
  generalize (visaCondition s).value = v at hex ⊢
  generalize (mastercardCondition s).value = m at hex ⊢
  generalize (discoverCondition s).value = d at hex ⊢
  generalize (amexCondition s).value = a at hex ⊢
  rcases v with _ | _ | _ <;> rcases m with _ | _ | _ <;> rcases d with _ | _ | _ <;>
    rcases a with _ | _ | _ <;> simp_all

/-! ## The claims -/

/-- Claim C1: for every string of decimal digits whose length is between 13 and
16, `luhn` returns, and it returns true exactly when the running sum over all
positions (doubled positions contributing `addDigits (2 * d)`, plain positions
`d`, the doubled positions being the even indices for an even length and the odd
indices for an odd length) is divisible by 10. -/
theorem luhn_iff_positional_sum_divisible (s : List Char) (_hs : IsDigitString s)
    (hL : 13 ≤ s.length) (hU : s.length ≤ 16) :
    luhn s = some (decide (10 ∣ positionalSum s)) := by
  rw [luhn_eq_alternating s hL hU, positionalSum_eq]
  congr 1
  exact decide_eq_decide.mpr Int.dvd_iff_tmod_eq_zero.symm

/-- Witness for C1 at the 15-digit number 340000000000009. -/
theorem luhn_iff_positional_sum_divisible_witness :
    IsDigitString "340000000000009".toList ∧ 13 ≤ "340000000000009".toList.length ∧
      "340000000000009".toList.length ≤ 16 ∧
      luhn "340000000000009".toList
        = some (decide (10 ∣ positionalSum "340000000000009".toList)) :=
  ⟨by decide, by decide, by decide,
    luhn_iff_positional_sum_divisible _ (by decide) (by decide) (by decide)⟩

/-- Claim C2: for every string of decimal digits with length between 13 and 16,
`luhn` gives the verdict of the standard right-to-left Luhn check. -/
theorem luhn_agrees_with_standard (s : List Char) (hs : IsDigitString s)
    (hL : 13 ≤ s.length) (hU : s.length ≤ 16) : luhn s = some (standardLuhn s) := by
  rw [luhn_eq_alternating s hL hU, ← standardLuhnTotal_eq s hs]
  unfold standardLuhn
  congr 1
  apply decide_eq_decide.mpr
  rw [Int.tmod_eq_emod (by positivity) (by decide)]
  omega

/-- Witness for C2 at the 13-digit number 4222222222222. -/
theorem luhn_agrees_with_standard_witness :
    IsDigitString "4222222222222".toList ∧ 13 ≤ "4222222222222".toList.length ∧
      "4222222222222".toList.length ≤ 16 ∧
      luhn "4222222222222".toList = some (standardLuhn "4222222222222".toList) :=
  ⟨by decide, by decide, by decide,
    luhn_agrees_with_standard _ (by decide) (by decide) (by decide)⟩

/-- Claim C3: for every string of decimal digits whose length is less than 13 or
greater than 16, `luhn` returns false, whatever the digits. -/
theorem luhn_rejects_length_out_of_range (s : List Char) (_hs : IsDigitString s)
    (hlen : s.length < 13 ∨ 16 < s.length) : luhn s = some false := by
  unfold luhn
  simp only [MIN_LENGTH, MAX_LENGTH, ge_iff_le]
  rw [if_pos (by omega)]

/-- Witness for C3 at the string 123. -/
theorem luhn_rejects_length_out_of_range_witness :
    IsDigitString "123".toList ∧ ("123".toList.length < 13 ∨ 16 < "123".toList.length) ∧
      luhn "123".toList = some false :=
  ⟨by decide, by decide,
    luhn_rejects_length_out_of_range _ (by decide) (by decide)⟩

/-- Claim C4: `isNumeric` returns false for the null pointer; for a present
string it returns true exactly when every character is one of `'0'..'9'`; so it
returns true for the empty string and false for every string that contains a
character that is not a digit. -/
theorem isNumeric_characterisation :
    isNumeric none = false ∧
      (∀ s : List Char, isNumeric (some s) = true ↔ ∀ c ∈ s, c ∈ decimalDigits) ∧
      isNumeric (some []) = true ∧
      (∀ s : List Char, (∃ c ∈ s, c ∉ decimalDigits) → isNumeric (some s) = false) := by
  refine ⟨rfl, fun s => isNumericLoop_iff s, rfl, ?_⟩
  rintro s ⟨c, hc, hnd⟩
  cases h : isNumeric (some s)
  · rfl
  · exact absurd ((isNumericLoop_iff s).mp h c hc) hnd

/-- Witness for C4 at the string 12a4, which holds the letter a. -/
theorem isNumeric_characterisation_witness :
    (∃ c ∈ "12a4".toList, c ∉ decimalDigits) ∧ isNumeric (some "12a4".toList) = false :=
  ⟨⟨'a', by decide, by decide⟩,
    isNumeric_characterisation.2.2.2 _ ⟨'a', by decide, by decide⟩⟩

/-- Claim C5: single-digit error detection.  For every string of decimal digits
that `luhn` accepts, every position of it and every digit other than the one at
that position, `luhn` rejects the string with that position replaced. -/
theorem luhn_detects_single_digit_error (s : List Char) (hs : IsDigitString s)
    (hv : luhn s = some true) (i : Nat) (hi : i < s.length) (d : Char)
    (hd : d ∈ decimalDigits) (hne : s[i]? ≠ some d) :
    luhn (s.set i d) = some false := by
  obtain ⟨hL, hU⟩ := luhn_true_length s hv
  have hc : s[i]? = some s[i] := List.getElem?_eq_getElem hi
  have hcd : s[i] ∈ decimalDigits := hs _ (List.getElem_mem hi)
  have hcne : s[i] ≠ d := fun h => hne (by rw [hc, h])
  rw [luhn_eq_alternating s hL hU] at hv
  rw [luhn_eq_alternating (s.set i d) (by simpa using hL) (by simpa using hU)]
  obtain ⟨bk, hbk⟩ := alternating_set s (decide (s.length % 2 = 0)) i s[i] d hc
  rw [List.length_set, hbk]
  have h1 := contribution_range bk s[i] hcd
  have h2 := contribution_range bk d hd
  have h3 : contribution bk s[i] ≠ contribution bk d :=
    fun h => hcne (contribution_injective bk _ _ hcd hd h)
  simp only [Option.some.injEq, decide_eq_true_eq] at hv
  have hdvd := Int.dvd_iff_tmod_eq_zero.mpr hv
  congr 1
  rw [decide_eq_false_iff_not, ← Int.dvd_iff_tmod_eq_zero]
  omega

/-- Witness for C5: 4539578763621486 is accepted, and with its last digit
replaced by 7 it is 4539578763621487, which is rejected. -/
theorem luhn_detects_single_digit_error_witness :
    IsDigitString "4539578763621486".toList ∧
      luhn "4539578763621486".toList = some true ∧
      "4539578763621486".toList.set 15 '7' = "4539578763621487".toList ∧
      luhn ("4539578763621486".toList.set 15 '7') = some false :=
  ⟨by decide, by decide, by decide,
    luhn_detects_single_digit_error "4539578763621486".toList (by decide) (by decide) 15
      (by decide) '7' (by decide) (by decide)⟩

/-- Claim C6: the four standard test numbers are accepted by `luhn`,
`checkPrefix` prints Visa, Mastercard, Discover and American Express for them,
each followed by a newline, and `main` prints the prompt, then `valid `, then
that network name and the newline, and returns 0. -/
theorem standard_test_numbers :
    luhn "4539578763621486".toList = some true ∧
      luhn "5500005555555559".toList = some true ∧
      luhn "6011000000000004".toList = some true ∧
      luhn "340000000000009".toList = some true ∧
      checkPrefix "4539578763621486".toList = some "Visa\n" ∧
      checkPrefix "5500005555555559".toList = some "Mastercard\n" ∧
      checkPrefix "6011000000000004".toList = some "Discover\n" ∧
      checkPrefix "340000000000009".toList = some "American Express\n" ∧
      main "4539578763621486\n".toList
        = some (Outcome.exit [PROMPT, "valid ", "Visa\n"] 0) ∧
      main "5500005555555559\n".toList
        = some (Outcome.exit [PROMPT, "valid ", "Mastercard\n"] 0) ∧
      main "6011000000000004\n".toList
        = some (Outcome.exit [PROMPT, "valid ", "Discover\n"] 0) ∧
      main "340000000000009\n".toList
        = some (Outcome.exit [PROMPT, "valid ", "American Express\n"] 0) ∧
      stdoutText ["valid ", "Visa\n"] = "valid Visa\n" ∧
      stdoutText ["valid ", "Mastercard\n"] = "valid Mastercard\n" ∧
      stdoutText ["valid ", "Discover\n"] = "valid Discover\n" ∧
      stdoutText ["valid ", "American Express\n"] = "valid American Express\n" := by
  refine ⟨?_, ?_, ?_, ?_, ?_, ?_, ?_, ?_, ?_, ?_, ?_, ?_, ?_, ?_, ?_, ?_⟩ <;> decide

/-- Claim C7: for every string, `checkPrefix` prints the network of the first
row of the ordered rule table that applies (followed by a newline), and the
fixed explanatory sentence when no row applies. -/
theorem checkPrefix_first_matching_row (s : List Char) :
    checkPrefix s = some (match firstMatch s with
      | some name => name ++ "\n"
      | none => UNRECOGNIZED) :=
  checkPrefix_eq_firstMatch s

/-- Claim C8: for every integer from 0 to 18, `addDigits` is the sum of the
decimal digits; in particular for the double of every digit, with
`addDigits 16 = 7` and `addDigits 18 = 9`. -/
theorem addDigits_digit_sum :
    (∀ n : Int, 0 ≤ n → n ≤ 18 → addDigits n = (decimalDigitSum n.toNat : Int)) ∧
      (∀ d : Int, 0 ≤ d → d ≤ 9 → addDigits (2 * d) = (decimalDigitSum (2 * d).toNat : Int)) ∧
      addDigits 16 = 7 ∧ addDigits 18 = 9 :=
  ⟨addDigits_small, fun d h0 h9 => addDigits_small (2 * d) (by omega) (by omega),
    by decide, by decide⟩

/-- Witness for C8 at 18, the largest doubled digit. -/
theorem addDigits_digit_sum_witness :
    (0 : Int) ≤ 18 ∧ (18 : Int) ≤ 18 ∧ addDigits 18 = (decimalDigitSum (18 : Int).toNat : Int) :=
  ⟨by decide, by decide, addDigits_digit_sum.1 18 (by decide) (by decide)⟩

/-- Claim C9: for every string of decimal digits, of any length, `luhn` returns
a boolean without reading outside the string; when the length gate lets it
through, its iterations read the indices `0 .. length-1` in order, and in every
iteration the index is inside the string, `digit` lies in `0..9` and an argument
handed to `addDigits` lies in `0..18`. -/
theorem luhn_safe_on_digit_strings (s : List Char) (hs : IsDigitString s) :
    (∃ b, luhn s = some b) ∧
      (luhnTrace s).map (fun it => it.index)
        = (if 13 ≤ s.length ∧ s.length ≤ 16 then List.range s.length else []) ∧
      ∀ it ∈ luhnTrace s, SafeIteration s it := by
  refine ⟨luhn_returns s, ?_⟩
  have he := traceLoop_even s [] 0 hs
  have ho := traceLoop_odd s [] 0 hs
  simp only [List.nil_append, List.length_nil] at he ho
  unfold luhnTrace
  simp only [MIN_LENGTH, MAX_LENGTH, ge_iff_le]
  by_cases hlen : 13 ≤ s.length ∧ s.length ≤ 16
  · rw [if_neg (not_not.mpr hlen), if_pos hlen, List.range_eq_range']
    by_cases hp : s.length % 2 = 0
    · rw [if_pos hp]; exact he
    · rw [if_neg hp]; exact ho
  · rw [if_pos hlen, if_neg hlen]
    simp

/-- Witness for C9 at the 16-digit number 6011000000000004. -/
theorem luhn_safe_on_digit_strings_witness :
    IsDigitString "6011000000000004".toList ∧
      (∃ b, luhn "6011000000000004".toList = some b) ∧
      (luhnTrace "6011000000000004".toList).map (fun it => it.index)
        = (if 13 ≤ "6011000000000004".toList.length ∧ "6011000000000004".toList.length ≤ 16
            then List.range "6011000000000004".toList.length else []) ∧
      ∀ it ∈ luhnTrace "6011000000000004".toList, SafeIteration "6011000000000004".toList it :=
  ⟨by decide, luhn_safe_on_digit_strings _ (by decide)⟩

/-- Claim C10, at a failing input: on a line of 18 characters `getInput`
reallocates its own copy of the buffer pointer, so `main` goes on to use a
pointer to a deallocated block: the run reaches undefined behaviour after the
prompt instead of returning 0. -/
theorem main_long_line_undefined :
    main "123456789012345678\n".toList = some (Outcome.undefined [PROMPT]) := by
  decide

/-- Claim C11, at a failing input: the first line has 24 characters and is not
numeric, the second is a valid card number.  `getInput` reallocates its own copy
of the buffer pointer while reading the first line, so `main` goes on with a
pointer to a deallocated block: the run reaches undefined behaviour after the
first prompt, instead of discarding the line, asking again and reporting the
second line valid. -/
theorem main_long_rejected_line_undefined :
    main "not a card number at all\n4539578763621486\n".toList
      = some (Outcome.undefined [PROMPT]) := by
  decide

/-- Claim C12, as amended: when the read loop of `main` has accepted a string
that `luhn` rejects, `main` prints, after the prompts, exactly `invalid`
followed by a newline, prints nothing else, and returns 0. -/
theorem invalid_verdict_text (stdin s : List Char) (out : List String)
    (hacc : mainLoop (stdin.length + 1) stdin [] = some (LoopResult.accepted s out))
    (hl : luhn s = some false) :
    main stdin = some (Outcome.exit (out ++ ["invalid\n"]) 0) ∧
      (∃ k, out = List.replicate k PROMPT) ∧
      verdictText (out ++ ["invalid\n"]) = "invalid\n" :=
  main_invalid stdin s out hacc hl

/-- Witness for C12 at the input line 123. -/
theorem invalid_verdict_text_witness :
    mainLoop ("123\n".toList.length + 1) "123\n".toList []
        = some (LoopResult.accepted "123".toList [PROMPT]) ∧
      luhn "123".toList = some false ∧
      main "123\n".toList = some (Outcome.exit ([PROMPT] ++ ["invalid\n"]) 0) ∧
      (∃ k, [PROMPT] = List.replicate k PROMPT) ∧
      verdictText ([PROMPT] ++ ["invalid\n"]) = "invalid\n" :=
  ⟨by decide, by decide,
    invalid_verdict_text "123\n".toList "123".toList [PROMPT] (by decide) (by decide)⟩

/-- Counterexample to C12 as stated: on the input line 123, which is accepted
and which `luhn` rejects, the verdict text is not the bare text `invalid`: it
ends with a newline. -/
theorem invalid_verdict_text_not_bare :
    mainLoop ("123\n".toList.length + 1) "123\n".toList []
        = some (LoopResult.accepted "123".toList [PROMPT]) ∧
      luhn "123".toList = some false ∧
      main "123\n".toList = some (Outcome.exit [PROMPT, "invalid\n"] 0) ∧
      verdictText [PROMPT, "invalid\n"] ≠ "invalid" := by
  refine ⟨?_, ?_, ?_, ?_⟩ <;> decide

/-- Claim C13, at a failing input: for a line of exactly 17 characters the loop
of `getInput` never grows the buffer, and the terminator is then stored at
index 17 of a buffer of capacity 17. -/
theorem getInput_terminator_out_of_bounds :
    (getInput "12345678901234567\n".toList).writes.getLast? = some (17, 17) ∧
      (getInput "12345678901234567\n".toList).reallocated = false ∧
      (getInput "12345678901234567\n".toList).writes.all (fun w => decide (w.1 < w.2))
        = false := by
  refine ⟨?_, ?_, ?_⟩ <;> decide

/-- Claim C14: unique check digit.  For every string of decimal digits of length
12 to 15 there is exactly one digit that, appended to it, makes `luhn` return
true. -/
theorem luhn_unique_check_digit (p : List Char) (_hp : IsDigitString p)
    (hL : 12 ≤ p.length) (hU : p.length ≤ 15) :
    ∃! c, c ∈ decimalDigits ∧ luhn (p ++ [c]) = some true := by
  have hlen : ∀ c : Char, (p ++ [c]).length = p.length + 1 := by intro c; simp
  have key : ∀ c : Char, luhn (p ++ [c]) = some true ↔
      (10 : Int) ∣ alternating (decide ((p.length + 1) % 2 = 0)) p + digitOf c := by
    intro c
    rw [luhn_eq_alternating (p ++ [c]) (by rw [hlen]; omega) (by rw [hlen]; omega),
      alternating_append_last, hlen]
    simp only [Option.some.injEq, decide_eq_true_eq]
    exact Int.dvd_iff_tmod_eq_zero.symm
  generalize alternating (decide ((p.length + 1) % 2 = 0)) p = W at key
  obtain ⟨c, hc, hv⟩ := digit_of_value ((-W) % 10) (by omega) (by omega)
  refine ⟨c, ⟨hc, (key c).mpr (by omega)⟩, ?_⟩
  rintro d ⟨hd, hdv⟩
  have hdd := (key d).mp hdv
  have h1 := digit_facts d hd
  apply contribution_injective false d c hd hc
  simp only [contribution, Bool.false_eq_true, if_false]
  omega

/-- Witness for C14 at the first 15 digits of 4539578763621486. -/
theorem luhn_unique_check_digit_witness :
    IsDigitString "453957876362148".toList ∧ 12 ≤ "453957876362148".toList.length ∧
      "453957876362148".toList.length ≤ 15 ∧
      ∃! c, c ∈ decimalDigits ∧ luhn ("453957876362148".toList ++ [c]) = some true :=
  ⟨by decide, by decide, by decide,
    luhn_unique_check_digit _ (by decide) (by decide) (by decide)⟩

/-- Claim C15: leading-zero invariance.  For every string of decimal digits of
length 13 to 15, `luhn` gives the same verdict with a `'0'` put in front. -/
theorem luhn_leading_zero (s : List Char) (_hs : IsDigitString s)
    (hL : 13 ≤ s.length) (hU : s.length ≤ 15) : luhn ('0' :: s) = luhn s := by
  rw [luhn_eq_alternating s hL (by omega),
    luhn_eq_alternating ('0' :: s) (by simp; omega) (by simp; omega),
    alternating_leading_zero]

/-- Witness for C15 at the 15-digit number 340000000000009. -/
theorem luhn_leading_zero_witness :
    IsDigitString "340000000000009".toList ∧ 13 ≤ "340000000000009".toList.length ∧
      "340000000000009".toList.length ≤ 15 ∧
      luhn ('0' :: "340000000000009".toList) = luhn "340000000000009".toList :=
  ⟨by decide, by decide, by decide,
    luhn_leading_zero _ (by decide) (by decide) (by decide)⟩

/-- Claim C16: for every string, of any length, `checkPrefix` prints some text
without reading outside the string, and every index it reads, through the
short-circuit conditions of its cascade, is below the length of the string. -/
theorem checkPrefix_reads_in_bounds (s : List Char) :
    (∃ t, checkPrefix s = some t) ∧ checkPrefix s = evalRules (codeRules s) ∧
      ∀ i ∈ checkPrefixReads s, i < s.length :=
  ⟨checkPrefix_returns s, checkPrefix_eq_evalRules s, checkPrefixReads_lt s⟩

/-- Claim C17: at most one of the four conditions of `checkPrefix` holds of a
string, and the four rules evaluated in any order print what `checkPrefix`
prints. -/
theorem checkPrefix_order_independent (s : List Char) (rules : List (Traced × String))
    (hp : rules.Perm (codeRules s)) :
    (codeRules s).countP (fun r => r.1.value == some true) ≤ 1 ∧
      evalRules rules = checkPrefix s := by
  refine ⟨conditions_countP s, ?_⟩
  rw [checkPrefix_eq_evalRules]
  exact (evalRules_perm _ _ hp.symm (conditions_exclusive s) (conditions_defined s)).symm

/-- Witness for C17: the rules in reverse order, on 6011000000000004. -/
theorem checkPrefix_order_independent_witness :
    (codeRules "6011000000000004".toList).reverse.Perm (codeRules "6011000000000004".toList) ∧
      (codeRules "6011000000000004".toList).countP (fun r => r.1.value == some true) ≤ 1 ∧
      evalRules (codeRules "6011000000000004".toList).reverse
        = checkPrefix "6011000000000004".toList :=
  ⟨List.reverse_perm _,
    checkPrefix_order_independent _ _ (List.reverse_perm _)⟩

/-- Claim C18: for every string of decimal digits of length 13 to 16, `luhn`
performs one iteration per character and, after each of them, `sum` lies
between 0 and 9 times the length, which is at most 144: the accumulator never
becomes negative and stays far below `2^31`. -/
theorem luhn_running_sum_bounded (s : List Char) (hs : IsDigitString s) (hL : 13 ≤ s.length)
    (hU : s.length ≤ 16) :
    (luhnTrace s).length = s.length ∧
      ∀ it ∈ luhnTrace s,
        0 ≤ it.sum ∧ it.sum ≤ 9 * (s.length : Int) ∧ 9 * (s.length : Int) ≤ 144 ∧
          it.sum < 2 ^ 31 := by
  obtain ⟨h1, h2⟩ := luhnTrace_sum s hs hL hU
  refine ⟨h1, fun it hit => ?_⟩
  obtain ⟨hi, h0, h9⟩ := h2 it hit
  refine ⟨h0, by omega, by omega, by omega⟩

/-- Witness for C18 at the 16-digit number 4539578763621486. -/
theorem luhn_running_sum_bounded_witness :
    IsDigitString "4539578763621486".toList ∧ 13 ≤ "4539578763621486".toList.length ∧
      "4539578763621486".toList.length ≤ 16 ∧
      (luhnTrace "4539578763621486".toList).length = "4539578763621486".toList.length ∧
      ∀ it ∈ luhnTrace "4539578763621486".toList,
        0 ≤ it.sum ∧ it.sum ≤ 9 * ("4539578763621486".toList.length : Int) ∧
          9 * ("4539578763621486".toList.length : Int) ≤ 144 ∧ it.sum < 2 ^ 31 :=
  ⟨by decide, by decide, by decide,
    luhn_running_sum_bounded _ (by decide) (by decide) (by decide)⟩

end Credit
